import Mathlib

/-!
Shallow embedding of the rucola note extraction pipeline, translated from
`src/data/mod.rs` (the id canonicalizer `name_to_id`) and `src/data/note.rs`
(front-matter extraction, YAML metadata parsing, the Markdown and Typst
extractors, and the `from_path` dispatcher).

Strings are modelled as `List Char`.  External library functions used by the
code (unicode NFC normalization, `str::to_lowercase`, file reading, the
comrak Markdown parser, the typst parser and the yaml_rust loader) are not
part of this repository; they are parameters of the embedding, collected in
the `Env` structure, so theorems quantify over their behaviour.  Concrete
instantiations used in witnesses fix them on the ASCII fragment, where the
behaviour of the real libraries is unambiguous (NFC is the identity on ASCII
and lowercasing is the usual ASCII map).

A Rust panic (out-of-bounds indexing) is modelled by the `RunResult.panics`
constructor; a normal return is `RunResult.returns`.
-/

/-- Convert a string literal to the `List Char` representation used throughout. -/
def cs (s : String) : List Char := s.toList

/-- Test whether `pat` occurs in `s` starting at position `i`. -/
def matchAt (pat s : List Char) (i : Nat) : Bool :=
  (s.drop i).take pat.length == pat

/-- Largest index `k < n` with `p k = true`, scanning downwards. -/
def lastIdxSat (p : Nat → Bool) : Nat → Option Nat
  | 0 => none
  | n + 1 => if p n then some n else lastIdxSat p n

/-- Smallest index `k` with `i ≤ k < i + fuel` and `p k = true`, scanning upwards. -/
def firstIdxFrom (p : Nat → Bool) : Nat → Nat → Option Nat
  | _, 0 => none
  | i, fuel + 1 => if p i then some i else firstIdxFrom p (i + 1) fuel

/-- Smallest index `k < n` with `p k = true`. -/
def firstIdxSat (p : Nat → Bool) (n : Nat) : Option Nat := firstIdxFrom p 0 n

/-- Position of the last closing-fence occurrence of `cl` in `s` at or after
position `k` (the greedy `(.|\n)*` in the front-matter regex matches up to the
last closing fence). -/
def closeAfter (cl s : List Char) (k : Nat) : Option Nat :=
  lastIdxSat (fun j => matchAt cl s j && decide (k ≤ j)) (s.length + 1)

/-- Leftmost-first match of the front-matter regex `op ((.|\n)*) cl ((.|\n)*)`:
the match starts at the first occurrence of `op` that is followed by some
occurrence of `cl`, and the greedy first group extends to the last occurrence
of `cl`.  Models `regex::Regex::captures` for the two fence patterns of
`note.rs` (which are unanchored). -/
def fenceMatch (op cl s : List Char) : Option (Nat × Nat) :=
  (firstIdxSat
      (fun i => matchAt op s i && (closeAfter cl s (i + op.length)).isSome)
      (s.length + 1)).bind
    (fun i => (closeAfter cl s (i + op.length)).map (fun j => (i, j)))

/-- Translation of `Note::extract_yaml`: on a regex match, capture group 1 is
the front matter (between the fences) and group 3 is the remaining content;
otherwise the whole text is the content. -/
def extract_yaml (op cl s : List Char) : Option (List Char) × List Char :=
  match fenceMatch op cl s with
  | none => (none, s)
  | some (i, j) =>
    (some ((s.drop (i + op.length)).take (j - (i + op.length))), s.drop (j + cl.length))

/-- Opening fence of the Markdown front-matter regex `---\n((.|\n)*)\n---\n((.|\n)*)`. -/
def mdOpenFence : List Char := cs "---\n"

/-- Closing fence of the Markdown front-matter regex. -/
def mdCloseFence : List Char := cs "\n---\n"

/-- Opening fence of the Typst front-matter regex, a block comment wrapper. -/
def typOpenFence : List Char := cs "/*\n---\n"

/-- Closing fence of the Typst front-matter regex. -/
def typCloseFence : List Char := cs "\n---\n*/"

/-- Front-matter extraction as performed in `MarkdownFile::to_note`. -/
def extract_yaml_md (s : List Char) : Option (List Char) × List Char :=
  extract_yaml mdOpenFence mdCloseFence s

/-- Front-matter extraction as performed in `TypstFile::to_note`. -/
def extract_yaml_typ (s : List Char) : Option (List Char) × List Char :=
  extract_yaml typOpenFence typCloseFence s

/-- Bounded (hence decidable) statement that the fence pattern occurs in `s`:
some occurrence of `op` is followed by some occurrence of `cl`. -/
def fencePresent (op cl s : List Char) : Bool :=
  (List.range (s.length + 1)).any (fun i =>
    matchAt op s i &&
      (List.range (s.length + 1)).any (fun j => matchAt cl s j && decide (i + op.length ≤ j)))

/-- First occurrence of `pat` in `s`, if any. -/
def findSub (pat s : List Char) : Option Nat :=
  firstIdxSat (fun i => matchAt pat s i) (s.length + 1)

/-- Fueled splitting of `s` at non-overlapping leftmost occurrences of `pat`,
modelling Rust `str::split` with a string pattern.  The fuel only needs to
exceed the number of occurrences; `splitOnSub` supplies `s.length`. -/
def splitOnSubFuel (pat : List Char) : Nat → List Char → List (List Char)
  | 0, s => [s]
  | fuel + 1, s =>
    match findSub pat s with
    | none => [s]
    | some k => s.take k :: splitOnSubFuel pat fuel (s.drop (k + pat.length))

/-- Rust `s.split(pat)` for a nonempty string pattern `pat`. -/
def splitOnSub (pat s : List Char) : List (List Char) := splitOnSubFuel pat s.length s

/-- Rust `str::replace`: replace every leftmost non-overlapping occurrence of
`pat` by `rep`. -/
def replaceSub (pat rep s : List Char) : List Char := List.intercalate rep (splitOnSub pat s)

/-- Predicate used by `name_to_id`'s `split(['#', '.']).take(1)` step: keep
characters strictly before the first `#` or `.`. -/
def hashDotSplit (c : Char) : Bool := !(c == '#' || c == '.')

/-- Rust `str::replace(' ', "-")`: a character-wise map. -/
def dashify (s : List Char) : List Char := s.map (fun c => if c == ' ' then '-' else c)

/-- Translation of `name_to_id` from `src/data/mod.rs`, parametric in the two
library transforms it calls: `nfc` (unicode_normalization's composed form) and
`lower` (Rust `str::to_lowercase`).  Steps, in source order: NFC-normalize,
keep the part before the first `#` or `.`, lowercase, replace spaces by
dashes, and remove `.md` occurrences (a no-op, since no `.` survives the
split, but kept for fidelity). -/
def name_to_id (nfc lower : List Char → List Char) (name : List Char) : List Char :=
  replaceSub (cs ".md") [] (dashify (lower ((nfc name).takeWhile hashDotSplit)))

-- Sanity checks of the embedding against the doc tests of `name_to_id`
-- (with identity transforms: the inputs are ASCII and already the right case).
example : name_to_id id (fun t => t.map Char.toLower) (cs "Lie Theory#Definition") =
    cs "lie-theory" := by decide
example : name_to_id id (fun t => t.map Char.toLower) (cs "Lie Theory.md") =
    cs "lie-theory" := by decide
example : name_to_id id (fun t => t.map Char.toLower) (cs "lie-theory") =
    cs "lie-theory" := by decide

/-- Simplified yaml_rust value model: only the shapes `parse_yaml` inspects
(strings, arrays, string-keyed hashes, and the out-of-tree `BadValue`). -/
inductive Yaml where
  | strv (s : List Char)
  | arr (xs : List Yaml)
  | hashmap (kvs : List (List Char × Yaml))
  | badValue

/-- yaml_rust `Index<&str> for Yaml`: hash lookup, `BadValue` when the key is
absent or the receiver is not a hash. -/
def Yaml.index (y : Yaml) (k : List Char) : Yaml :=
  match y with
  | .hashmap kvs => (((kvs.find? (fun kv => kv.1 == k)).map Prod.snd).getD .badValue)
  | _ => .badValue

/-- yaml_rust `Yaml::as_str`. -/
def Yaml.as_str : Yaml → Option (List Char)
  | .strv s => some s
  | _ => none

/-- yaml_rust `Yaml::as_vec`. -/
def Yaml.as_vec : Yaml → Option (List Yaml)
  | .arr xs => some xs
  | _ => none

/-- The per-entry tag expansion of `Note::parse_yaml`: split the entry on the
literal separator `" - "`; one part gives `#entry`, more parts pair every
subsequent part with the first. -/
def expandEntry (s : List Char) : List (List Char) :=
  match splitOnSub (cs " - ") s with
  | [] => []
  | [_] => ['#' :: s]
  | p0 :: rest => rest.map (fun sub => '#' :: (p0 ++ '/' :: sub))

/-- The tag-list computation of `Note::parse_yaml` on the first YAML document:
take the `tags` entry as a list (empty when absent), keep its string elements,
and expand each. -/
def tagsOf (doc : Yaml) : List (List Char) :=
  (((((doc.index (cs "tags")).as_vec).getD []).filterMap Yaml.as_str).map expandEntry).flatten

/-- The title computation of `Note::parse_yaml` on the first YAML document. -/
def titleOf (doc : Yaml) : Option (List Char) := (doc.index (cs "title")).as_str

/-- The error enumeration of the crate, restricted to the variants the modelled
code can produce. -/
inductive RucolaError where
  | fileUnreadable
  | unhandledFiletype
  | noteNameCannotBeRead
  | yamlScanError
  deriving DecidableEq

/-- Outcome of running a fallible, possibly panicking Rust computation. -/
inductive RunResult (α : Type) where
  | panics
  | returns (val : α)
  deriving DecidableEq

instance {ε α : Type} [DecidableEq ε] [DecidableEq α] : DecidableEq (Except ε α) := by
  intro a b
  cases a <;> cases b
  case error.error e1 e2 =>
    exact if h : e1 = e2 then .isTrue (by rw [h]) else .isFalse (by simp [h])
  case error.ok e1 a2 => exact .isFalse (by simp)
  case ok.error a1 e2 => exact .isFalse (by simp)
  case ok.ok a1 a2 =>
    exact if h : a1 = a2 then .isTrue (by rw [h]) else .isFalse (by simp [h])

/-- Translation of `Note::parse_yaml`, parametric in the yaml_rust loader
(`none` models a scan error, converted by `?` into a rucola error).  The
source indexes `docs[0]` unconditionally; when the loader yields zero
documents, that `Vec` indexing is out of bounds, which is a panic. -/
def parse_yaml (load : List Char → Option (List Yaml)) :
    Option (List Char) → RunResult (Except RucolaError (Option (List Char) × List (List Char)))
  | none => .returns (.ok (none, []))
  | some y =>
    match load y with
    | none => .returns (.error .yamlScanError)
    | some docs =>
      match docs.head? with
      | none => .panics
      | some doc => .returns (.ok (titleOf doc, tagsOf doc))

/-- Unicode `White_Space` property, as used by Rust `char::is_whitespace` and
hence by `str::split_whitespace`. -/
def rustWhitespace (c : Char) : Bool :=
  c == ' ' || c == '\t' || c == '\n' || c == '\r' ||
  c == Char.ofNat 0x0B || c == Char.ofNat 0x0C || c == Char.ofNat 0x85 ||
  c == Char.ofNat 0xA0 || c == Char.ofNat 0x1680 ||
  (decide (0x2000 ≤ c.toNat) && decide (c.toNat ≤ 0x200A)) ||
  c == Char.ofNat 0x2028 || c == Char.ofNat 0x2029 ||
  c == Char.ofNat 0x202F || c == Char.ofNat 0x205F || c == Char.ofNat 0x3000

/-- Accumulator-based worker for `split_whitespace`; the accumulator holds the
current token reversed. -/
def swAux : List Char → List Char → List (List Char)
  | acc, [] => if acc.isEmpty then [] else [acc.reverse]
  | acc, c :: rest =>
    if rustWhitespace c then
      if acc.isEmpty then swAux [] rest else acc.reverse :: swAux [] rest
    else swAux (c :: acc) rest

/-- Rust `str::split_whitespace`: maximal runs of non-whitespace characters,
consecutive whitespace collapsed, no empty tokens. -/
def split_whitespace (s : List Char) : List (List Char) := swAux [] s

/-- Rust `String::len`: the byte length of the UTF-8 encoding. -/
def utf8Length (s : List Char) : Nat := (s.map Char.utf8Size).sum

example : split_whitespace (cs "  a bc  d ") = [cs "a", cs "bc", cs "d"] := by decide
example : utf8Length (cs "ab") = 2 := by decide

/-- Node values of the comrak Markdown AST that `MarkdownFile::to_note`
distinguishes; every other node kind is `other`.  The parser interface below
supplies the tree's descendant sequence in document (preorder) order, which is
all the extractor consumes via `root.descendants()`. -/
inductive MdNodeVal where
  | text (content : List Char)
  | wikiLink (url : List Char)
  | link (url : List Char)
  | other
  deriving DecidableEq

/-- The per-node link match of `MarkdownFile::to_note`: wikilink targets are
always canonicalized and recorded; standard links only when their URL contains
neither `/` nor `.`. -/
def mdLinkOf (nfc lower : List Char → List Char) : MdNodeVal → Option (List Char)
  | .wikiLink url => some (name_to_id nfc lower url)
  | .link url =>
    if !(url.contains '/') && !(url.contains '.') then some (name_to_id nfc lower url)
    else none
  | _ => none

/-- The links field computation of `MarkdownFile::to_note`. -/
def scanLinks (nfc lower : List Char → List Char) (ds : List MdNodeVal) : List (List Char) :=
  ds.filterMap (mdLinkOf nfc lower)

/-- Rust `str::starts_with('#')`. -/
def startsWithHash : List Char → Bool
  | '#' :: _ => true
  | _ => false

/-- The per-node tag scan of `MarkdownFile::to_note`: whitespace-split every
text node and keep the tokens starting with `#`, verbatim. -/
def mdTagsOf : MdNodeVal → List (List Char)
  | .text content => (split_whitespace content).filter startsWithHash
  | _ => []

/-- The text-scanned tags of `MarkdownFile::to_note`, in document order. -/
def scanTags (ds : List MdNodeVal) : List (List Char) := (ds.map mdTagsOf).flatten

/-- Typst concrete syntax tree nodes, with the kinds `TypstFile` inspects
(`FuncCall`, `Ident`, `Args`, `Str`) and a catch-all with children. -/
inductive TNode where
  | funcCall (children : List TNode)
  | identNode (text : List Char)
  | argsNode (children : List TNode)
  | strNode (value : List Char)
  | otherNode (children : List TNode)

/-- Children of a typst node, as iterated by `SyntaxNode::children`. -/
def TNode.childrenOf : TNode → List TNode
  | .funcCall c => c
  | .identNode _ => []
  | .argsNode c => c
  | .strNode _ => []
  | .otherNode c => c

/-- First immediate child castable to `ast::Ident`, as found by
`cast_first_match::<ast::Ident>`. -/
def firstIdentText : List TNode → Option (List Char)
  | [] => none
  | .identNode s :: _ => some s
  | _ :: rest => firstIdentText rest

/-- First immediate child castable to `ast::Args`. -/
def firstArgsChildren : List TNode → Option (List TNode)
  | [] => none
  | .argsNode c :: _ => some c
  | _ :: rest => firstArgsChildren rest

/-- First immediate child castable to `ast::Str`, yielding its string value. -/
def firstStrVal : List TNode → Option (List Char)
  | [] => none
  | .strNode s :: _ => some s
  | _ :: rest => firstStrVal rest

/-- Translation of `TypstFile::look_ahead` applied to a `FuncCall` node with
the given children: if the first identifier child equals `ident`, yield the
first string-literal argument of the first argument list. -/
def look_ahead (children : List TNode) (ident : List Char) : Option (List Char) :=
  match firstIdentText children with
  | none => none
  | some name => if name == ident then (firstArgsChildren children).bind firstStrVal else none

/-- The tag push of `traverse_tree`: prepend `#` unless already present. -/
def ensureHash (tag : List Char) : List Char :=
  match tag with
  | '#' :: _ => tag
  | _ => '#' :: tag

/-- Link/tag contribution of a single node inspected by `traverse_tree`: only
`FuncCall` nodes contribute, links take priority over tags. -/
def tContrib (li ti : List Char) : TNode → List (List Char) × List (List Char)
  | .funcCall cc =>
    match look_ahead cc li with
    | some l => ([l], [])
    | none =>
      match look_ahead cc ti with
      | some t => ([], [ensureHash t])
      | none => ([], [])
  | _ => ([], [])

mutual

/-- Recursive descent of `TypstFile::traverse_tree` into one node: iterate the
node's children (`travList`); the node's own contribution is emitted by the
caller, mirroring the source where a node is inspected by the loop of its
parent and then descended into. -/
def travInto (li ti : List Char) : TNode → List (List Char) × List (List Char)
  | .funcCall cc => travList li ti cc
  | .identNode _ => ([], [])
  | .argsNode cc => travList li ti cc
  | .strNode _ => ([], [])
  | .otherNode cc => travList li ti cc

/-- Translation of `TypstFile::traverse_tree` run over a list of sibling
nodes: each node's own contribution is emitted before the contributions found
inside it, and siblings are processed left to right, so both result lists are
in document order. -/
def travList (li ti : List Char) : List TNode → List (List Char) × List (List Char)
  | [] => ([], [])
  | c :: rest =>
    ((tContrib li ti c).1 ++ (travInto li ti c).1 ++ (travList li ti rest).1,
     (tContrib li ti c).2 ++ (travInto li ti c).2 ++ (travList li ti rest).2)

end

example :
    travList (cs "link") (cs "tag")
      [TNode.funcCall [TNode.identNode (cs "link"),
        TNode.argsNode [TNode.strNode (cs "Birds")]]] =
    ([cs "Birds"], []) := by decide

/-- Split a list at every occurrence of the separator character (keeping empty
pieces), used to take path components. -/
def splitOnChar (sep : Char) : List Char → List (List Char)
  | [] => [[]]
  | c :: rest =>
    match splitOnChar sep rest with
    | [] => if c == sep then [[], [c]] else [[c]]
    | h :: t => if c == sep then [] :: h :: t else (c :: h) :: t

/-- Rust `Path::file_name` for unix-style paths: the final normal component;
`None` when the path is empty, a root, or ends in `..`; `.` components are
skipped. -/
def fileNameOf (p : List Char) : Option (List Char) :=
  match ((splitOnChar '/' p).filter (fun c => !(c.isEmpty || c == cs "."))).getLast? with
  | none => none
  | some last => if last == cs ".." then none else some last

/-- Index of the last `.` in a file name, if any. -/
def lastDotIdx (n : List Char) : Option Nat :=
  lastIdxSat (fun i => n.get? i == some '.') n.length

/-- Rust's stem/extension split of a file name: the part before and after the
last `.`, except that a leading `.` with no later `.` marks a hidden file with
no extension. -/
def stemExt (n : List Char) : List Char × Option (List Char) :=
  match lastDotIdx n with
  | none => (n, none)
  | some 0 => (n, none)
  | some i => (n.take i, some (n.drop (i + 1)))

/-- Rust `Path::file_stem`. -/
def file_stem (p : List Char) : Option (List Char) :=
  (fileNameOf p).map (fun n => (stemExt n).1)

/-- Rust `Path::extension`. -/
def extension (p : List Char) : Option (List Char) :=
  (fileNameOf p).bind (fun n => (stemExt n).2)

example : extension (cs "note") = none := by decide
example : extension (cs "a/b.md") = some (cs "md") := by decide
example : file_stem (cs "a/b.md") = some (cs "b") := by decide
example : file_stem (cs "Birds") = some (cs "Birds") := by decide

/-- The `Note` record of `src/data/note.rs`.  The `path` field stores the
given path: `fs::canonicalize` depends on the live filesystem and its
`unwrap_or` fallback to the input path is the behaviour modelled here. -/
structure Note where
  display_name : List Char
  name : List Char
  tags : List (List Char)
  links : List (List Char)
  words : Nat
  characters : Nat
  path : List Char
  deriving DecidableEq

/-- The external collaborators of the pipeline, as parameters: the two unicode
transforms used by `name_to_id`, the filesystem read (`none` is an I/O error),
the two parsers (returning the markdown descendant sequence and the typst
root's children), the yaml loader (`none` is a scan error) and the two
configured typst function identifiers. -/
structure Env where
  nfc : List Char → List Char
  lower : List Char → List Char
  readFile : List Char → Option (List Char)
  mdParse : List Char → List MdNodeVal
  typParse : List Char → List TNode
  yamlLoad : List Char → Option (List Yaml)
  linkIdent : List Char
  tagIdent : List Char

/-- Translation of `MarkdownFile::to_note`: read the file, split off YAML
front matter, parse the YAML, and assemble the note from the comrak tree of
the remaining content. -/
def MarkdownFile.to_note (env : Env) (p : List Char) : RunResult (Except RucolaError Note) :=
  match env.readFile p with
  | none => .returns (.error .fileUnreadable)
  | some raw =>
    match parse_yaml env.yamlLoad (extract_yaml_md raw).1 with
    | .panics => .panics
    | .returns (.error e) => .returns (.error e)
    | .returns (.ok (title, ytags)) =>
      match file_stem p with
      | none => .returns (.error .noteNameCannotBeRead)
      | some stem =>
        .returns (.ok {
          display_name := title.getD stem
          name := stem
          tags := scanTags (env.mdParse (extract_yaml_md raw).2) ++ ytags
          links := scanLinks env.nfc env.lower (env.mdParse (extract_yaml_md raw).2)
          words := (split_whitespace (extract_yaml_md raw).2).length
          characters := utf8Length (extract_yaml_md raw).2
          path := p })

/-- Translation of `TypstFile::to_note`: the YAML tags vector is passed
mutably into `traverse_tree`, so scanned tags are appended after the
metadata-derived ones; links are reduced to their file stems. -/
def TypstFile.to_note (env : Env) (p : List Char) : RunResult (Except RucolaError Note) :=
  match env.readFile p with
  | none => .returns (.error .fileUnreadable)
  | some raw =>
    match parse_yaml env.yamlLoad (extract_yaml_typ raw).1 with
    | .panics => .panics
    | .returns (.error e) => .returns (.error e)
    | .returns (.ok (title, ytags)) =>
      match file_stem p with
      | none => .returns (.error .noteNameCannotBeRead)
      | some stem =>
        .returns (.ok {
          display_name := title.getD stem
          name := stem
          tags := ytags ++
            (travList env.linkIdent env.tagIdent (env.typParse (extract_yaml_typ raw).2)).2
          links :=
            (travList env.linkIdent env.tagIdent
              (env.typParse (extract_yaml_typ raw).2)).1.filterMap file_stem
          words := (split_whitespace (extract_yaml_typ raw).2).length
          characters := utf8Length (extract_yaml_typ raw).2
          path := p })

/-- Translation of `Note::from_path`: `path.extension()` returning `None` is
turned into `UnhandledFiletype` by the `ok_or`; otherwise `md` and `typ`
dispatch to their extractors and every other extension falls back to
Markdown.  (The `to_str` lossy step is dropped: the model's extensions are
always valid strings.) -/
def Note.from_path (env : Env) (p : List Char) : RunResult (Except RucolaError Note) :=
  match extension p with
  | none => .returns (.error .unhandledFiletype)
  | some e =>
    if e == cs "md" then MarkdownFile.to_note env p
    else if e == cs "typ" then TypstFile.to_note env p
    else MarkdownFile.to_note env p

/-- A string free of `#` and `.` (no anchor and no extension part). -/
def hashDotFree (t : List Char) : Prop := ∀ c ∈ t, c ≠ '#' ∧ c ≠ '.'

instance (t : List Char) : Decidable (hashDotFree t) := by
  unfold hashDotFree; infer_instance

/-- Canonical id form relative to a lowercasing transform: fixed under
lowercasing, and containing no `#`, `.` or space (dash-separated with no
extension or anchor part). -/
def InCanonicalForm (lower : List Char → List Char) (l : List Char) : Prop :=
  lower l = l ∧ ∀ c ∈ l, c ≠ '#' ∧ c ≠ '.' ∧ c ≠ ' '

instance (lower : List Char → List Char) (l : List Char) :
    Decidable (InCanonicalForm lower l) := by
  unfold InCanonicalForm; infer_instance

/-- Rust `str::to_lowercase` restricted to ASCII input, where it is the plain
character-wise ASCII map; used to instantiate the abstract `lower` parameter
on concrete ASCII fixtures. -/
def asciiLower (s : List Char) : List Char := s.map Char.toLower

/-- An environment whose external collaborators all answer trivially. -/
def envTriv : Env := {
  nfc := id, lower := id,
  readFile := fun _ => none,
  mdParse := fun _ => [], typParse := fun _ => [],
  yamlLoad := fun _ => none,
  linkIdent := [], tagIdent := [] }

/-- Environment for the reachable-panic input: the file's front matter block
is empty (`---\n\n---\n...`), and the yaml loader answers with zero documents,
which is yaml_rust's documented result for an empty input string. -/
def envBug : Env := {
  nfc := id, lower := id,
  readFile := fun _ => some (cs "---\n\n---\nbody"),
  mdParse := fun _ => [], typParse := fun _ => [],
  yamlLoad := fun _ => some [],
  linkIdent := [], tagIdent := [] }

/-- Environment of the Markdown fixture: a body with a wikilink to `Manifold`
and the inline hashtag `#diffgeo`; the comrak parser returns the matching
descendant sequence; lowercasing is the ASCII map. -/
def envM : Env := {
  nfc := id, lower := asciiLower,
  readFile := fun _ => some (cs "[[Manifold]] #diffgeo"),
  mdParse := fun _ => [MdNodeVal.other, MdNodeVal.wikiLink (cs "Manifold"),
    MdNodeVal.text (cs "#diffgeo")],
  typParse := fun _ => [],
  yamlLoad := fun _ => none,
  linkIdent := [], tagIdent := [] }

/-- The note the pipeline produces on `envM` for path `chart.md`. -/
def noteM : Note := {
  display_name := cs "chart", name := cs "chart",
  tags := [cs "#diffgeo"], links := [cs "manifold"],
  words := 2, characters := 21, path := cs "chart.md" }

/-- Environment of the Typst link fixture: the file body parses to a single
`link("Birds")` call, with `link` the configured link identifier. -/
def envC : Env := {
  nfc := id, lower := asciiLower,
  readFile := fun _ => some (cs "body"),
  mdParse := fun _ => [],
  typParse := fun _ => [TNode.funcCall [TNode.identNode (cs "link"),
    TNode.argsNode [TNode.strNode (cs "Birds")]]],
  yamlLoad := fun _ => none,
  linkIdent := cs "link", tagIdent := cs "tag" }

/-- The note the pipeline produces on `envC` for path `n.typ`: the link keeps
its original capitalization. -/
def noteC : Note := {
  display_name := cs "n", name := cs "n",
  tags := [], links := [cs "Birds"],
  words := 1, characters := 4, path := cs "n.typ" }

/-- Environment of the Typst tag-order fixture: front matter declares the tag
list `[a]` and the body contains one `tag("b")` call. -/
def envT : Env := {
  nfc := id, lower := asciiLower,
  readFile := fun _ => some (cs "/*\n---\nt\n---\n*/B"),
  mdParse := fun _ => [],
  typParse := fun _ => [TNode.funcCall [TNode.identNode (cs "tag"),
    TNode.argsNode [TNode.strNode (cs "b")]]],
  yamlLoad := fun _ => some [Yaml.hashmap [(cs "tags", Yaml.arr [Yaml.strv (cs "a")])]],
  linkIdent := cs "link", tagIdent := cs "tag" }

/-- The note the pipeline produces on `envT` for path `w.typ`: the
metadata-derived tag `#a` precedes the text-scanned tag `#b`. -/
def noteT : Note := {
  display_name := cs "w", name := cs "w",
  tags := [cs "#a", cs "#b"], links := [],
  words := 1, characters := 1, path := cs "w.typ" }

/-- Environment with identity transforms, a fenced Markdown file carrying the
tag list `[a]`, a body with one scanned tag and one wikilink, and a typst tree
with one `tag("b")` call. -/
def envId : Env := {
  nfc := id, lower := id,
  readFile := fun _ => some (cs "---\nt: 1\n---\nbody #b [[Manifold]]"),
  mdParse := fun _ => [MdNodeVal.text (cs "#b"), MdNodeVal.wikiLink (cs "Manifold")],
  typParse := fun _ => [TNode.funcCall [TNode.identNode (cs "tag"),
    TNode.argsNode [TNode.strNode (cs "b")]]],
  yamlLoad := fun _ => some [Yaml.hashmap [(cs "tags", Yaml.arr [Yaml.strv (cs "a")])]],
  linkIdent := cs "link", tagIdent := cs "tag" }

/-- The note the pipeline produces on `envId` for path `a.md`. -/
def noteId : Note := {
  display_name := cs "a", name := cs "a",
  tags := [cs "#b", cs "#a"], links := [cs "Manifold"],
  words := 3, characters := 20, path := cs "a.md" }

/-- The note the pipeline produces on `envId` for path `w.typ` (the file has
no typst-style fence, so the whole content is the body). -/
def noteIdTyp : Note := {
  display_name := cs "w", name := cs "w",
  tags := [cs "#b"], links := [],
  words := 7, characters := 33, path := cs "w.typ" }

example : MarkdownFile.to_note envId (cs "a.md") = .returns (.ok noteId) := by decide
example : TypstFile.to_note envId (cs "w.typ") = .returns (.ok noteIdTyp) := by decide

/-- Spec-side formulation of the hierarchical tag expansion rule, following
the words of spec section 4.3: split the entry on the literal separator
`" - "`; if exactly one part results emit the single tag `#<entry>`; if more
parts result, part 0 is the category root and every subsequent part `p` emits
one tag `#<p0>/<p>`.  Stated separately from `expandEntry` (the translation of
the source) so their agreement can be proved. -/
def specExpandEntry (entry : List Char) : List (List Char) :=
  let parts := splitOnSub (cs " - ") entry
  if parts.length == 1 then ['#' :: entry]
  else (parts.drop 1).map (fun p => '#' :: (parts.headI ++ '/' :: p))

theorem firstIdxFrom_eq_some {p : Nat → Bool} :
    ∀ (fuel i j : Nat), firstIdxFrom p i fuel = some j →
      i ≤ j ∧ j < i + fuel ∧ p j = true ∧ ∀ m, i ≤ m → m < j → p m = false := by
  intro fuel
  induction fuel with
  | zero => intro i j h; simp [firstIdxFrom] at h
  | succ fuel ih =>
    intro i j h
    rw [firstIdxFrom] at h
    by_cases hp : p i = true
    · rw [if_pos hp] at h
      cases h
      exact ⟨le_refl _, by omega, hp, fun m h1 h2 => absurd (lt_of_le_of_lt h1 h2) (lt_irrefl _)⟩
    · rw [if_neg hp] at h
      obtain ⟨h1, h2, h3, h4⟩ := ih (i + 1) j h
      refine ⟨by omega, by omega, h3, fun m hm1 hm2 => ?_⟩
      rcases Nat.eq_or_lt_of_le hm1 with heq | hlt
      · rw [← heq]; exact Bool.eq_false_iff.mpr hp
      · exact h4 m hlt hm2

theorem firstIdxFrom_eq_none_of {p : Nat → Bool} :
    ∀ (fuel i : Nat), (∀ m, i ≤ m → m < i + fuel → p m = false) →
      firstIdxFrom p i fuel = none := by
  intro fuel
  induction fuel with
  | zero => intro i _; rfl
  | succ fuel ih =>
    intro i h
    rw [firstIdxFrom, if_neg, ih (i + 1) (fun m h1 h2 => h m (by omega) (by omega))]
    simp [h i (le_refl i) (by omega)]

theorem lastIdxSat_eq_some {p : Nat → Bool} :
    ∀ (n j : Nat), lastIdxSat p n = some j →
      j < n ∧ p j = true ∧ ∀ m, j < m → m < n → p m = false := by
  intro n
  induction n with
  | zero => intro j h; simp [lastIdxSat] at h
  | succ n ih =>
    intro j h
    rw [lastIdxSat] at h
    by_cases hp : p n = true
    · rw [if_pos hp] at h
      cases h
      exact ⟨by omega, hp, fun m h1 h2 => by omega⟩
    · rw [if_neg hp] at h
      obtain ⟨h1, h2, h3⟩ := ih j h
      refine ⟨by omega, h2, fun m hm1 hm2 => ?_⟩
      rcases Nat.lt_succ_iff_lt_or_eq.mp hm2 with hlt | heq
      · exact h3 m hm1 hlt
      · rw [heq]; exact Bool.eq_false_iff.mpr hp

theorem lastIdxSat_isSome_of {p : Nat → Bool} :
    ∀ (n j : Nat), j < n → p j = true → (lastIdxSat p n).isSome = true := by
  intro n
  induction n with
  | zero => intro j h; omega
  | succ n ih =>
    intro j hj hp
    rw [lastIdxSat]
    by_cases hn : p n = true
    · rw [if_pos hn]; rfl
    · rw [if_neg hn]
      have hjn : j < n := by
        rcases Nat.lt_succ_iff_lt_or_eq.mp hj with h | h
        · exact h
        · exact absurd (h ▸ hp) (by simp [hn])
      exact ih j hjn hp

theorem matchAt_drop_eq {pat s : List Char} {i : Nat} (h : matchAt pat s i = true) :
    s.drop i = pat ++ s.drop (i + pat.length) := by
  have heq : (s.drop i).take pat.length = pat := by
    simpa [matchAt] using h
  calc s.drop i = (s.drop i).take pat.length ++ (s.drop i).drop pat.length :=
        (List.take_append_drop _ _).symm
    _ = pat ++ s.drop (i + pat.length) := by
        rw [heq, List.drop_drop, Nat.add_comm]

theorem matchAt_decomp {pat s : List Char} {i : Nat} (h : matchAt pat s i = true) :
    s = s.take i ++ pat ++ s.drop (i + pat.length) := by
  conv_lhs => rw [← List.take_append_drop i s, matchAt_drop_eq h]
  rw [List.append_assoc]

theorem matchAt_le {pat s : List Char} {i : Nat} (hpat : pat ≠ [])
    (h : matchAt pat s i = true) : i + pat.length ≤ s.length := by
  have heq : (s.drop i).take pat.length = pat := by
    simpa [matchAt] using h
  have hlen : min pat.length (s.length - i) = pat.length := by
    have := congrArg List.length heq
    simpa [List.length_take, List.length_drop] using this
  have hpos : 0 < pat.length := List.length_pos.mpr hpat
  have hle : pat.length ≤ s.length - i := by omega
  omega

theorem matchAt_mem {pat s : List Char} {i : Nat} {c : Char} (hc : c ∈ pat)
    (h : matchAt pat s i = true) : c ∈ s := by
  rw [matchAt_decomp h]
  simp [hc]

theorem closeAfter_eq_some {cl s : List Char} {k j : Nat}
    (h : closeAfter cl s k = some j) :
    matchAt cl s j = true ∧ k ≤ j ∧
    ∀ m, j < m → m < s.length + 1 → ¬(matchAt cl s m = true ∧ k ≤ m) := by
  obtain ⟨h1, h2, h3⟩ := lastIdxSat_eq_some _ _ h
  rw [Bool.and_eq_true, decide_eq_true_iff] at h2
  refine ⟨h2.1, h2.2, fun m hm1 hm2 hc => ?_⟩
  have hfalse := h3 m hm1 hm2
  simp [hc.1, hc.2] at hfalse

theorem fenceMatch_eq_some {op cl s : List Char} {i j : Nat} (hcl : cl ≠ [])
    (h : fenceMatch op cl s = some (i, j)) :
    matchAt op s i = true ∧ matchAt cl s j = true ∧ i + op.length ≤ j ∧
    ∀ m, matchAt cl s m = true → i + op.length ≤ m → m ≤ j := by
  rw [fenceMatch] at h
  cases hfi : firstIdxSat
      (fun i => matchAt op s i && (closeAfter cl s (i + op.length)).isSome)
      (s.length + 1) with
  | none => rw [hfi] at h; simp at h
  | some i0 =>
    rw [hfi, Option.some_bind] at h
    cases hca : closeAfter cl s (i0 + op.length) with
    | none => rw [hca, Option.map_none'] at h; cases h
    | some j0 =>
      rw [hca] at h
      simp only [Option.map_some', Option.some.injEq, Prod.mk.injEq] at h
      obtain ⟨hi, hj⟩ := h
      subst hi; subst hj
      obtain ⟨_, _, hp, _⟩ := firstIdxFrom_eq_some _ 0 _ hfi
      rw [Bool.and_eq_true] at hp
      obtain ⟨hc1, hc2, hc3⟩ := closeAfter_eq_some hca
      refine ⟨hp.1, hc1, hc2, fun m hm1 hm2 => ?_⟩
      by_contra hgt
      push_neg at hgt
      have hmb : m < s.length + 1 := by
        have := matchAt_le hcl hm1
        omega
      exact hc3 m hgt hmb ⟨hm1, hm2⟩

theorem fenceMatch_eq_none_of {op cl s : List Char}
    (h : fencePresent op cl s = false) : fenceMatch op cl s = none := by
  rw [fenceMatch]
  have hnone : firstIdxSat
      (fun i => matchAt op s i && (closeAfter cl s (i + op.length)).isSome)
      (s.length + 1) = none := by
    apply firstIdxFrom_eq_none_of
    intro m _ hm
    by_contra hc
    rw [Bool.not_eq_false, Bool.and_eq_true] at hc
    obtain ⟨hop, hca⟩ := hc
    cases hcaeq : closeAfter cl s (m + op.length) with
    | none => rw [hcaeq] at hca; simp at hca
    | some j =>
      obtain ⟨hj1, hj2, _⟩ := closeAfter_eq_some hcaeq
      have hjlt : j < s.length + 1 := by
        obtain ⟨h1, _, _⟩ := lastIdxSat_eq_some _ _ hcaeq
        exact h1
      rw [fencePresent] at h
      have : ∃ i ∈ List.range (s.length + 1),
          (matchAt op s i &&
            (List.range (s.length + 1)).any
              (fun j => matchAt cl s j && decide (i + op.length ≤ j))) = true := by
        refine ⟨m, List.mem_range.mpr (by omega), ?_⟩
        rw [Bool.and_eq_true]
        refine ⟨hop, ?_⟩
        rw [List.any_eq_true]
        exact ⟨j, List.mem_range.mpr hjlt, by rw [Bool.and_eq_true]; exact ⟨hj1, by simpa using hj2⟩⟩
      rw [← List.any_eq_true] at this
      rw [this] at h
      cases h
  rw [hnone, Option.none_bind]

theorem extract_yaml_of_absent {op cl s : List Char}
    (h : fencePresent op cl s = false) : extract_yaml op cl s = (none, s) := by
  rw [extract_yaml, fenceMatch_eq_none_of h]

theorem extract_yaml_decomp {op cl s m body : List Char} (hcl : cl ≠ [])
    (h : extract_yaml op cl s = (some m, body)) :
    ∃ pre, s = pre ++ op ++ m ++ cl ++ body := by
  rw [extract_yaml] at h
  cases hfm : fenceMatch op cl s with
  | none => rw [hfm] at h; simp at h
  | some ij =>
    obtain ⟨i, j⟩ := ij
    rw [hfm] at h
    simp only [Prod.mk.injEq, Option.some.injEq] at h
    obtain ⟨hm, hbody⟩ := h
    obtain ⟨hop, hclj, hij, _⟩ := fenceMatch_eq_some hcl hfm
    refine ⟨s.take i, ?_⟩
    have hstep1 : s = s.take i ++ op ++ s.drop (i + op.length) := matchAt_decomp hop
    have h2a : (s.drop (i + op.length)).drop (j - (i + op.length)) = s.drop j := by
      rw [List.drop_drop]
      have harith : i + op.length + (j - (i + op.length)) = j := by omega
      rw [harith]
    have hstep2 : s.drop (i + op.length) = m ++ s.drop j := by
      rw [← hm, ← h2a]
      exact (List.take_append_drop _ _).symm
    have hstep3 : s.drop j = cl ++ s.drop (j + cl.length) := matchAt_drop_eq hclj
    rw [← hbody]
    conv_lhs => rw [hstep1, hstep2, hstep3]
    simp [List.append_assoc]

theorem mem_takeWhile_pred {p : Char → Bool} :
    ∀ {t : List Char} {c : Char}, c ∈ t.takeWhile p → p c = true := by
  intro t
  induction t with
  | nil => intro c h; simp [List.takeWhile] at h
  | cons a t ih =>
    intro c h
    rw [List.takeWhile] at h
    by_cases hp : p a = true
    · rw [hp] at h
      simp only [List.mem_cons] at h
      rcases h with h | h
      · rw [h]; exact hp
      · exact ih h
    · rw [Bool.eq_false_iff.mpr hp] at h
      simp at h

theorem takeWhile_hashDotFree (t : List Char) : hashDotFree (t.takeWhile hashDotSplit) := by
  intro c hc
  have := mem_takeWhile_pred hc
  simp only [hashDotSplit, Bool.not_eq_true', Bool.or_eq_false_iff, beq_eq_false_iff_ne] at this
  exact this

theorem takeWhile_eq_self {p : Char → Bool} :
    ∀ {t : List Char}, (∀ c ∈ t, p c = true) → t.takeWhile p = t := by
  intro t
  induction t with
  | nil => intro _; rfl
  | cons a t ih =>
    intro h
    rw [List.takeWhile, h a (List.mem_cons_self a t), ih (fun c hc => h c (List.mem_cons_of_mem a hc))]

theorem dashify_mem {t : List Char} {c : Char} (h : c ∈ dashify t) :
    c = '-' ∨ (c ∈ t ∧ c ≠ ' ') := by
  rw [dashify] at h
  obtain ⟨d, hd, hdc⟩ := List.mem_map.mp h
  by_cases hsp : d = ' '
  · left; rw [← hdc, hsp]; rfl
  · right
    have : c = d := by
      rw [← hdc]
      simp [hsp]
    rw [this]
    exact ⟨hd, hsp⟩

theorem dashify_hashDotFree {t : List Char} (h : hashDotFree t) :
    hashDotFree (dashify t) := by
  intro c hc
  rcases dashify_mem hc with h1 | h1
  · rw [h1]; exact ⟨by decide, by decide⟩
  · exact h c h1.1

theorem dashify_no_space {t : List Char} {c : Char} (h : c ∈ dashify t) : c ≠ ' ' := by
  rcases dashify_mem h with h1 | h1
  · rw [h1]; decide
  · exact h1.2

theorem dashify_fix {t : List Char} (h : ∀ c ∈ t, c ≠ ' ') : dashify t = t := by
  rw [dashify]
  calc t.map (fun c => if c == ' ' then '-' else c) = t.map id := by
        apply List.map_congr_left
        intro a ha
        simp [h a ha]
    _ = t := List.map_id t

theorem findSub_md_none {t : List Char} (h : ∀ c ∈ t, c ≠ '.') :
    findSub (cs ".md") t = none := by
  apply firstIdxFrom_eq_none_of
  intro m _ _
  by_contra hc
  rw [Bool.not_eq_false] at hc
  exact absurd rfl (h '.' (matchAt_mem (by decide) hc))

theorem splitOnSubFuel_of_none {pat t : List Char} (h : findSub pat t = none) :
    ∀ fuel, splitOnSubFuel pat fuel t = [t] := by
  intro fuel
  cases fuel with
  | zero => rfl
  | succ fuel => rw [splitOnSubFuel, h]

theorem replaceSub_md_fix {t : List Char} (h : ∀ c ∈ t, c ≠ '.') :
    replaceSub (cs ".md") [] t = t := by
  rw [replaceSub, splitOnSub, splitOnSubFuel_of_none (findSub_md_none h)]
  simp [List.intercalate]

theorem name_to_id_eq_dashify {nfc lower : List Char → List Char}
    (hlcf : ∀ t, hashDotFree t → hashDotFree (lower t)) (s : List Char) :
    name_to_id nfc lower s = dashify (lower ((nfc s).takeWhile hashDotSplit)) := by
  rw [name_to_id]
  apply replaceSub_md_fix
  intro c hc
  exact (dashify_hashDotFree (hlcf _ (takeWhile_hashDotFree (nfc s))) c hc).2

theorem name_to_id_canonical (nfc : List Char → List Char) {lower : List Char → List Char}
    (hlidem : ∀ t, lower (lower t) = lower t)
    (hldash : ∀ t, lower (dashify t) = dashify (lower t))
    (hlcf : ∀ t, hashDotFree t → hashDotFree (lower t))
    (s : List Char) : InCanonicalForm lower (name_to_id nfc lower s) := by
  rw [name_to_id_eq_dashify hlcf]
  constructor
  · rw [hldash, hlidem]
  · intro c hc
    have hfree := dashify_hashDotFree (hlcf _ (takeWhile_hashDotFree (nfc s))) c hc
    exact ⟨hfree.1, hfree.2, dashify_no_space hc⟩

theorem expandEntry_eq_spec (entry : List Char) : expandEntry entry = specExpandEntry entry := by
  unfold expandEntry specExpandEntry
  cases hsp : splitOnSub (cs " - ") entry with
  | nil => simp
  | cons p0 rest =>
    cases rest with
    | nil => simp
    | cons p1 rest2 => simp [List.headI]

/-- C5: every metadata tag-list entry is split on the literal separator
`" - "`; one part yields the single tag `#<entry>`, while N > 1 parts yield,
for each subsequent part, one tag pairing it directly with the root part; in
particular the entries `A - B - C` and `D` yield exactly
`#A/B, #A/C, #D` in that order. -/
theorem c5_tag_hierarchy :
    (∀ entry : List Char, expandEntry entry = specExpandEntry entry) ∧
    tagsOf (Yaml.hashmap [(cs "tags",
        Yaml.arr [Yaml.strv (cs "A - B - C"), Yaml.strv (cs "D")])]) =
      [cs "#A/B", cs "#A/C", cs "#D"] :=
  ⟨fun entry => expandEntry_eq_spec entry, by decide⟩

/-- C9: when the fence pattern is absent from the input text, the splitter
returns no metadata and the body is the input text unchanged, for both fence
grammars. -/
theorem c9_absent_fence (s : List Char) :
    (fencePresent mdOpenFence mdCloseFence s = false → extract_yaml_md s = (none, s)) ∧
    (fencePresent typOpenFence typCloseFence s = false → extract_yaml_typ s = (none, s)) :=
  ⟨fun h => extract_yaml_of_absent h, fun h => extract_yaml_of_absent h⟩

theorem c9_witness :
    fencePresent mdOpenFence mdCloseFence (cs "hello") = false ∧
    fencePresent typOpenFence typCloseFence (cs "hello") = false ∧
    extract_yaml_md (cs "hello") = (none, cs "hello") ∧
    extract_yaml_typ (cs "hello") = (none, cs "hello") :=
  ⟨by decide, by decide, (c9_absent_fence (cs "hello")).1 (by decide),
    (c9_absent_fence (cs "hello")).2 (by decide)⟩

/-- C10 (code bug): on a file whose front-matter block is empty, the yaml
loader yields zero documents and `parse_yaml`'s indexing of `docs[0]` is out
of bounds, so the whole pipeline panics instead of returning a value or a
`MalformedMetadata` error. -/
theorem c10_parse_yaml_panics :
    extract_yaml_md (cs "---\n\n---\nbody") = (some (cs ""), cs "body") ∧
    parse_yaml (fun _ => some []) (some (cs "")) = RunResult.panics ∧
    Note.from_path envBug (cs "a.md") = RunResult.panics :=
  ⟨by decide, by decide, by decide⟩

/-- C4 (amended): the front-matter regex is unanchored and greedy: a match
may start at any occurrence of the opening fence (not only at the start of
the file), and the metadata region extends to the last closing-fence
occurrence in the file, with the body being everything after it. -/
theorem c4_amended (s : List Char) (i j : Nat)
    (h : fenceMatch mdOpenFence mdCloseFence s = some (i, j)) :
    matchAt mdOpenFence s i = true ∧ matchAt mdCloseFence s j = true ∧
    i + mdOpenFence.length ≤ j ∧
    (∀ m, matchAt mdCloseFence s m = true → i + mdOpenFence.length ≤ m → m ≤ j) ∧
    extract_yaml_md s =
      (some ((s.drop (i + mdOpenFence.length)).take (j - (i + mdOpenFence.length))),
       s.drop (j + mdCloseFence.length)) := by
  obtain ⟨h1, h2, h3, h4⟩ := fenceMatch_eq_some (by decide) h
  refine ⟨h1, h2, h3, h4, ?_⟩
  rw [extract_yaml_md, extract_yaml, h]

theorem c4_witness :
    fenceMatch mdOpenFence mdCloseFence (cs "---\nm\n---\nb") = some (0, 5) ∧
    extract_yaml_md (cs "---\nm\n---\nb") = (some (cs "m"), cs "b") :=
  ⟨by decide,
    ((c4_amended (cs "---\nm\n---\nb") 0 5 (by decide)).2.2.2.2).trans (by decide)⟩

/-- C4 (counterexample): on `---\na\n---\nbody\n---\ntail` the splitter takes
the metadata up to the LAST closing fence (`a\n---\nbody`), so a bare `---`
line inside the body is treated as the closing fence, contradicting the
first-closing-fence reading; and on `x\n---\nm\n---\nb` the fence is
recognized although the opening `---` is not at the start of the file. -/
theorem c4_counterexample :
    extract_yaml_md (cs "---\na\n---\nbody\n---\ntail") =
      (some (cs "a\n---\nbody"), cs "tail") ∧
    extract_yaml_md (cs "x\n---\nm\n---\nb") = (some (cs "m"), cs "b") :=
  ⟨by decide, by decide⟩

/-- C6: the id canonicalizer is idempotent on inputs free of `#` and `.`.
The unicode transforms are abstract; the hypotheses are the standard facts
about them that the proof consumes: NFC is idempotent and preserves fixed
points under prefix-taking, lowercasing and space-to-dash replacement (all
consequences of NFC normalization being local and never producing `#`, `.`,
or case changes), lowercasing is idempotent, commutes with space-to-dash
replacement, and never introduces `#` or `.`. -/
theorem c6_idempotent (nfc lower : List Char → List Char)
    (hnfc_idem : ∀ t, nfc (nfc t) = nfc t)
    (hnfc_take : ∀ t, nfc t = t → nfc (t.takeWhile hashDotSplit) = t.takeWhile hashDotSplit)
    (hnfc_lower : ∀ t, nfc t = t → nfc (lower t) = lower t)
    (hnfc_dash : ∀ t, nfc t = t → nfc (dashify t) = dashify t)
    (hlidem : ∀ t, lower (lower t) = lower t)
    (hldash : ∀ t, lower (dashify t) = dashify (lower t))
    (hlcf : ∀ t, hashDotFree t → hashDotFree (lower t))
    (s : List Char) (_hs : hashDotFree s) :
    name_to_id nfc lower (name_to_id nfc lower s) = name_to_id nfc lower s := by
  obtain ⟨hlow, hchars⟩ := name_to_id_canonical nfc hlidem hldash hlcf s
  have hnfcfix : nfc (name_to_id nfc lower s) = name_to_id nfc lower s := by
    rw [name_to_id_eq_dashify hlcf]
    exact hnfc_dash _ (hnfc_lower _ (hnfc_take _ (hnfc_idem s)))
  rw [name_to_id_eq_dashify hlcf (name_to_id nfc lower s), hnfcfix,
    takeWhile_eq_self (fun c hc => by
      obtain ⟨h1, h2, _⟩ := hchars c hc
      simp [hashDotSplit, h1, h2]),
    hlow,
    dashify_fix (fun c hc => (hchars c hc).2.2)]

theorem c6_witness :
    hashDotFree (cs "Lie Theory") ∧
    name_to_id id id (name_to_id id id (cs "Lie Theory")) = name_to_id id id (cs "Lie Theory") :=
  ⟨by decide,
    c6_idempotent id id (fun _ => rfl) (fun _ _ => rfl) (fun _ _ => rfl) (fun _ _ => rfl)
      (fun _ => rfl) (fun _ => rfl) (fun _ ht => ht) (cs "Lie Theory") (by decide)⟩

theorem parse_yaml_error_eq {load : List Char → Option (List Yaml)}
    {y : Option (List Char)} {e : RucolaError}
    (h : parse_yaml load y = .returns (.error e)) : e = RucolaError.yamlScanError := by
  cases y with
  | none => simp [parse_yaml] at h
  | some t =>
    rw [parse_yaml] at h
    cases hl : load t with
    | none =>
      rw [hl] at h
      simp only [RunResult.returns.injEq, Except.error.injEq] at h
      exact h.symm
    | some docs =>
      rw [hl] at h
      cases docs with
      | nil => simp at h
      | cons d ds => simp at h

theorem md_to_note_error {env : Env} {p : List Char} {err : RucolaError}
    (h : MarkdownFile.to_note env p = .returns (.error err)) :
    err ≠ RucolaError.unhandledFiletype := by
  rw [MarkdownFile.to_note] at h
  split at h
  · simp only [RunResult.returns.injEq, Except.error.injEq] at h
    rw [← h]; decide
  · split at h
    · simp at h
    next e hp =>
      simp only [RunResult.returns.injEq, Except.error.injEq] at h
      rw [← h]
      have := parse_yaml_error_eq hp
      rw [this]; decide
    · split at h
      · simp only [RunResult.returns.injEq, Except.error.injEq] at h
        rw [← h]; decide
      · simp at h

/-- C2 (amended): a path with a recognized-as-present but unrecognized
extension dispatches to the Markdown extractor and can never produce
`UnhandledFiletype`; a path with no extension at all, however, fails with
`UnhandledFiletype` at the dispatch layer (see the counterexample). -/
theorem c2_amended (env : Env) (p e : List Char) (hext : extension p = some e)
    (hmd : e ≠ cs "md") (htyp : e ≠ cs "typ") :
    Note.from_path env p = MarkdownFile.to_note env p ∧
    ∀ err, Note.from_path env p = .returns (.error err) →
      err ≠ RucolaError.unhandledFiletype := by
  have h1 : (e == cs "md") = false := beq_eq_false_iff_ne.mpr hmd
  have h2 : (e == cs "typ") = false := beq_eq_false_iff_ne.mpr htyp
  have hdisp : Note.from_path env p = MarkdownFile.to_note env p := by
    rw [Note.from_path, hext]
    simp [h1, h2]
  refine ⟨hdisp, fun err herr => ?_⟩
  rw [hdisp] at herr
  exact md_to_note_error herr

theorem c2_witness :
    extension (cs "a.xyz") = some (cs "xyz") ∧
    Note.from_path envTriv (cs "a.xyz") = MarkdownFile.to_note envTriv (cs "a.xyz") :=
  ⟨by decide,
    (c2_amended envTriv (cs "a.xyz") (cs "xyz") (by decide) (by decide) (by decide)).1⟩

/-- C2 (counterexample): the path `note` has no extension, and the dispatcher
fails with `UnhandledFiletype` on it instead of falling back to the Markdown
extractor. -/
theorem c2_counterexample :
    extension (cs "note") = none ∧
    Note.from_path envTriv (cs "note") =
      .returns (.error RucolaError.unhandledFiletype) :=
  ⟨by decide, by decide⟩

theorem md_to_note_ok {env : Env} {p : List Char} {n : Note}
    (h : MarkdownFile.to_note env p = .returns (.ok n)) :
    ∃ raw title ytags stem,
      env.readFile p = some raw ∧
      parse_yaml env.yamlLoad (extract_yaml_md raw).1 = .returns (.ok (title, ytags)) ∧
      file_stem p = some stem ∧
      n = { display_name := title.getD stem, name := stem,
            tags := scanTags (env.mdParse (extract_yaml_md raw).2) ++ ytags,
            links := scanLinks env.nfc env.lower (env.mdParse (extract_yaml_md raw).2),
            words := (split_whitespace (extract_yaml_md raw).2).length,
            characters := utf8Length (extract_yaml_md raw).2,
            path := p } := by
  rw [MarkdownFile.to_note] at h
  split at h
  · simp at h
  next raw hr =>
    split at h
    · simp at h
    · simp at h
    next title ytags hp =>
      split at h
      · simp at h
      next stem hs =>
        refine ⟨raw, title, ytags, stem, hr, hp, hs, ?_⟩
        simp only [RunResult.returns.injEq, Except.ok.injEq] at h
        exact h.symm

theorem typ_to_note_ok {env : Env} {p : List Char} {n : Note}
    (h : TypstFile.to_note env p = .returns (.ok n)) :
    ∃ raw title ytags stem,
      env.readFile p = some raw ∧
      parse_yaml env.yamlLoad (extract_yaml_typ raw).1 = .returns (.ok (title, ytags)) ∧
      file_stem p = some stem ∧
      n = { display_name := title.getD stem, name := stem,
            tags := ytags ++
              (travList env.linkIdent env.tagIdent (env.typParse (extract_yaml_typ raw).2)).2,
            links :=
              (travList env.linkIdent env.tagIdent
                (env.typParse (extract_yaml_typ raw).2)).1.filterMap file_stem,
            words := (split_whitespace (extract_yaml_typ raw).2).length,
            characters := utf8Length (extract_yaml_typ raw).2,
            path := p } := by
  rw [TypstFile.to_note] at h
  split at h
  · simp at h
  next raw hr =>
    split at h
    · simp at h
    · simp at h
    next title ytags hp =>
      split at h
      · simp at h
      next stem hs =>
        refine ⟨raw, title, ytags, stem, hr, hp, hs, ?_⟩
        simp only [RunResult.returns.injEq, Except.ok.injEq] at h
        exact h.symm

theorem mdLinkOf_shape {nfc lower : List Char → List Char} {v : MdNodeVal} {l : List Char}
    (h : mdLinkOf nfc lower v = some l) : ∃ url, l = name_to_id nfc lower url := by
  cases v with
  | text c => simp [mdLinkOf] at h
  | wikiLink url =>
    refine ⟨url, ?_⟩
    simp only [mdLinkOf, Option.some.injEq] at h
    exact h.symm
  | link url =>
    rw [mdLinkOf] at h
    split at h
    · refine ⟨url, ?_⟩
      simp only [Option.some.injEq] at h
      exact h.symm
    · simp at h
  | other => simp [mdLinkOf] at h

/-- C1 (amended): every `links` entry of a note produced by the Markdown
extractor is in canonical form (fixed under lowercasing, with no `#`, `.` or
space), under the standard facts about the lowercasing transform; the Typst
extractor instead records the bare file stem of each raw link target, with no
case normalization (see the counterexample). -/
theorem c1_links_canonical (env : Env)
    (hlidem : ∀ t, env.lower (env.lower t) = env.lower t)
    (hldash : ∀ t, env.lower (dashify t) = dashify (env.lower t))
    (hlcf : ∀ t, hashDotFree t → hashDotFree (env.lower t)) :
    (∀ p n, MarkdownFile.to_note env p = .returns (.ok n) →
      ∀ l ∈ n.links, InCanonicalForm env.lower l) ∧
    (∀ p raw n, env.readFile p = some raw →
      TypstFile.to_note env p = .returns (.ok n) →
      n.links = (travList env.linkIdent env.tagIdent
        (env.typParse (extract_yaml_typ raw).2)).1.filterMap file_stem) := by
  constructor
  · intro p n h l hl
    obtain ⟨raw, title, ytags, stem, _, _, _, hn⟩ := md_to_note_ok h
    rw [hn] at hl
    simp only [scanLinks, List.mem_filterMap] at hl
    obtain ⟨v, _, hv⟩ := hl
    obtain ⟨url, hurl⟩ := mdLinkOf_shape hv
    rw [hurl]
    exact name_to_id_canonical env.nfc hlidem hldash hlcf url
  · intro p raw n hraw h
    obtain ⟨raw2, title, ytags, stem, hr2, _, _, hn⟩ := typ_to_note_ok h
    have : raw2 = raw := by
      rw [hraw] at hr2
      exact (Option.some.injEq _ _ ▸ hr2).symm
    rw [hn, this]

theorem c1_witness :
    MarkdownFile.to_note envId (cs "a.md") = .returns (.ok noteId) ∧
    InCanonicalForm envId.lower (cs "Manifold") :=
  ⟨by decide,
    by
      have h := (c1_links_canonical envId (fun _ => rfl) (fun _ => rfl) (fun _ ht => ht)).1
        (cs "a.md") noteId (by decide) (cs "Manifold") (by decide)
      exact h⟩

/-- C1 (counterexample): the assembler run on a Typst file whose body contains
`link("Birds")` produces the links entry `Birds`, which is not in canonical
form: it is not fixed under (ASCII) lowercasing. -/
theorem c1_counterexample :
    Note.from_path envC (cs "n.typ") = .returns (.ok noteC) ∧
    noteC.links = [cs "Birds"] ∧
    ¬ InCanonicalForm envC.lower (cs "Birds") :=
  ⟨by decide, by decide, by decide⟩

/-- C3 (amended): for a Markdown note the tags sequence is the text-scanned
tags in document order followed by the metadata-derived tags; for a Typst note
the order is reversed: the metadata-derived tags come first, followed by the
scanned tags, because the scanned tags are pushed onto the YAML tag vector.
Neither sequence is deduplicated (both are plain concatenations). -/
theorem c3_tag_order (env : Env) :
    (∀ p raw n title ytags, env.readFile p = some raw →
      parse_yaml env.yamlLoad (extract_yaml_md raw).1 = .returns (.ok (title, ytags)) →
      MarkdownFile.to_note env p = .returns (.ok n) →
      n.tags = scanTags (env.mdParse (extract_yaml_md raw).2) ++ ytags) ∧
    (∀ p raw n title ytags, env.readFile p = some raw →
      parse_yaml env.yamlLoad (extract_yaml_typ raw).1 = .returns (.ok (title, ytags)) →
      TypstFile.to_note env p = .returns (.ok n) →
      n.tags = ytags ++
        (travList env.linkIdent env.tagIdent (env.typParse (extract_yaml_typ raw).2)).2) := by
  constructor
  · intro p raw n title ytags hraw hyaml h
    obtain ⟨raw2, title2, ytags2, stem, hr2, hy2, _, hn⟩ := md_to_note_ok h
    have hre : raw2 = raw := by
      rw [hraw] at hr2
      exact (Option.some.injEq _ _ ▸ hr2).symm
    subst hre
    rw [hyaml] at hy2
    simp only [RunResult.returns.injEq, Except.ok.injEq, Prod.mk.injEq] at hy2
    rw [hn]
    rw [hy2.2]
  · intro p raw n title ytags hraw hyaml h
    obtain ⟨raw2, title2, ytags2, stem, hr2, hy2, _, hn⟩ := typ_to_note_ok h
    have hre : raw2 = raw := by
      rw [hraw] at hr2
      exact (Option.some.injEq _ _ ▸ hr2).symm
    subst hre
    rw [hyaml] at hy2
    simp only [RunResult.returns.injEq, Except.ok.injEq, Prod.mk.injEq] at hy2
    rw [hn]
    rw [hy2.2]

theorem c3_witness :
    MarkdownFile.to_note envId (cs "a.md") = .returns (.ok noteId) ∧
    noteId.tags = scanTags (envId.mdParse (extract_yaml_md
      (cs "---\nt: 1\n---\nbody #b [[Manifold]]")).2) ++ [cs "#a"] :=
  ⟨by decide,
    (c3_tag_order envId).1 (cs "a.md") (cs "---\nt: 1\n---\nbody #b [[Manifold]]")
      noteId none [cs "#a"] (by decide) (by decide) (by decide)⟩

/-- C3 (counterexample): a Typst file with metadata tag list `[a]` and a
scanned `tag("b")` call yields the tags sequence `#a, #b` — the
metadata-derived tag comes first, not last as the claim states for every
format. -/
theorem c3_counterexample :
    Note.from_path envT (cs "w.typ") = .returns (.ok noteT) ∧
    noteT.tags = [cs "#a", cs "#b"] ∧
    noteT.tags ≠ [cs "#b"] ++ [cs "#a"] :=
  ⟨by decide, by decide, by decide⟩

/-- C7: in the Markdown extractor every wikilink target is canonicalized and
recorded as a link; a standard link node contributes a (canonicalized) link if
and only if its URL contains neither `/` nor `.`; and on the fixture with a
wikilink to `Manifold` and the inline hashtag `#diffgeo`, the produced note
has `manifold` among its links and `#diffgeo` among its tags. -/
theorem c7_md_link_extraction :
    (∀ (nfc lower : List Char → List Char) (ds : List MdNodeVal) (url : List Char),
        MdNodeVal.wikiLink url ∈ ds → name_to_id nfc lower url ∈ scanLinks nfc lower ds) ∧
    (∀ (nfc lower : List Char → List Char) (ds : List MdNodeVal) (url : List Char),
        MdNodeVal.link url ∈ ds →
        url.contains '/' = false → url.contains '.' = false →
        name_to_id nfc lower url ∈ scanLinks nfc lower ds) ∧
    (∀ (nfc lower : List Char → List Char) (url : List Char),
        url.contains '/' = true ∨ url.contains '.' = true →
        mdLinkOf nfc lower (MdNodeVal.link url) = none) ∧
    (MarkdownFile.to_note envM (cs "chart.md") = .returns (.ok noteM) ∧
      cs "manifold" ∈ noteM.links ∧ cs "#diffgeo" ∈ noteM.tags) := by
  refine ⟨?_, ?_, ?_, by decide, by decide, by decide⟩
  · intro nfc lower ds url hmem
    rw [scanLinks, List.mem_filterMap]
    exact ⟨MdNodeVal.wikiLink url, hmem, rfl⟩
  · intro nfc lower ds url hmem h1 h2
    rw [scanLinks, List.mem_filterMap]
    refine ⟨MdNodeVal.link url, hmem, ?_⟩
    rw [mdLinkOf, if_pos (by rw [h1, h2]; rfl)]
  · intro nfc lower url h
    rcases h with h | h <;>
      (rw [mdLinkOf, if_neg]; rw [h]; simp)

theorem c7_witness :
    cs "manifold" ∈ scanLinks envM.nfc envM.lower
      (envM.mdParse (cs "[[Manifold]] #diffgeo")) := by
  have h := c7_md_link_extraction.1 envM.nfc envM.lower
    (envM.mdParse (cs "[[Manifold]] #diffgeo")) (cs "Manifold") (by decide)
  have he : name_to_id envM.nfc envM.lower (cs "Manifold") = cs "manifold" := by decide
  exact he ▸ h

/-- C8: in both formats the word count is the number of whitespace-separated
tokens of the body remaining after front-matter extraction and the character
count is the raw (byte) length of that body; when a metadata block is present
the input decomposes as prefix, opening fence, metadata, closing fence, body,
so no byte of the metadata block is counted. -/
theorem c8_word_char_counts (env : Env) :
    (∀ p raw n, env.readFile p = some raw →
      MarkdownFile.to_note env p = .returns (.ok n) →
      n.words = (split_whitespace (extract_yaml_md raw).2).length ∧
      n.characters = utf8Length (extract_yaml_md raw).2 ∧
      ∀ m, (extract_yaml_md raw).1 = some m →
        ∃ pre, raw = pre ++ mdOpenFence ++ m ++ mdCloseFence ++ (extract_yaml_md raw).2) ∧
    (∀ p raw n, env.readFile p = some raw →
      TypstFile.to_note env p = .returns (.ok n) →
      n.words = (split_whitespace (extract_yaml_typ raw).2).length ∧
      n.characters = utf8Length (extract_yaml_typ raw).2 ∧
      ∀ m, (extract_yaml_typ raw).1 = some m →
        ∃ pre, raw = pre ++ typOpenFence ++ m ++ typCloseFence ++ (extract_yaml_typ raw).2) := by
  constructor
  · intro p raw n hraw h
    obtain ⟨raw2, title, ytags, stem, hr2, _, _, hn⟩ := md_to_note_ok h
    have hre : raw2 = raw := by
      rw [hraw] at hr2
      exact (Option.some.injEq _ _ ▸ hr2).symm
    subst hre
    refine ⟨by rw [hn], by rw [hn], fun m hm => ?_⟩
    refine extract_yaml_decomp (by decide) ?_
    rw [show extract_yaml mdOpenFence mdCloseFence raw2 = extract_yaml_md raw2 from rfl,
      Prod.ext_iff]
    exact ⟨hm, rfl⟩
  · intro p raw n hraw h
    obtain ⟨raw2, title, ytags, stem, hr2, _, _, hn⟩ := typ_to_note_ok h
    have hre : raw2 = raw := by
      rw [hraw] at hr2
      exact (Option.some.injEq _ _ ▸ hr2).symm
    subst hre
    refine ⟨by rw [hn], by rw [hn], fun m hm => ?_⟩
    refine extract_yaml_decomp (by decide) ?_
    rw [show extract_yaml typOpenFence typCloseFence raw2 = extract_yaml_typ raw2 from rfl,
      Prod.ext_iff]
    exact ⟨hm, rfl⟩

theorem c8_witness :
    MarkdownFile.to_note envId (cs "a.md") = .returns (.ok noteId) ∧
    noteId.words = (split_whitespace (extract_yaml_md
      (cs "---\nt: 1\n---\nbody #b [[Manifold]]")).2).length ∧
    noteId.characters = utf8Length (extract_yaml_md
      (cs "---\nt: 1\n---\nbody #b [[Manifold]]")).2 :=
  ⟨by decide,
    ((c8_word_char_counts envId).1 (cs "a.md") (cs "---\nt: 1\n---\nbody #b [[Manifold]]")
      noteId (by decide) (by decide)).1,
    ((c8_word_char_counts envId).1 (cs "a.md") (cs "---\nt: 1\n---\nbody #b [[Manifold]]")
      noteId (by decide) (by decide)).2.1⟩
